import Mathlib

/-!
Verification development for the libdata repository (datacore / protocol /
libdata crates).  The Rust sources are shallowly embedded: machine integers
become Nat (the code's own bounds keep them in range wherever overflow is not
the point of a claim), fallible operations return Except or Option, and the
asynchronous backing stores become explicit functional state.  Loops are
embedded with an explicit fuel argument equal to the bound the source's own
termination argument provides, so that every definition is executable.
-/

set_option maxRecDepth 8192

namespace Libdata

/-- View of an `Except` as a `Sum`, to transport decidable equality. -/
def exceptToSum {α β : Type} : Except α β → α ⊕ β
  | .error a => .inl a
  | .ok b => .inr b

instance {α β : Type} [DecidableEq α] [DecidableEq β] :
    DecidableEq (Except α β) := fun a b =>
  decidable_of_iff (exceptToSum a = exceptToSum b)
    (by cases a <;> cases b <;> simp [exceptToSum])

/-- Little-endian serialization of a natural number into `k` bytes
(mirrors byteorder's WriteBytesExt little-endian writers). -/
def bytesLE : Nat → Nat → List Nat
  | 0, _ => []
  | k + 1, n => n % 256 :: bytesLE k (n / 256)

/-- u64 little-endian bytes (`write_u64::<LittleEndian>`). -/
def u64le (n : Nat) : List Nat := bytesLE 8 n

/-- u32 little-endian bytes (`write_u32::<LittleEndian>`). -/
def u32le (n : Nat) : List Nat := bytesLE 4 n

/-- Little-endian value of a byte list (mirrors byteorder's readers). -/
def leVal (d : List Nat) : Nat := d.foldr (fun b a => b + 256 * a) 0

/-- Rust u32 arithmetic wraps modulo `2^32` (release semantics; a debug
build panics instead of returning a value, so no run observes the exact
sum once it exceeds `u32::MAX`). -/
def wrapU32 (n : Nat) : Nat := n % 4294967296

/-!
## Flat tree

Modelled from the spec: the file `src/datacore/src/merkle_tree_stream/flat_tree.rs`
is declared (`mod flat_tree;`) but missing from the sources, so the helpers
`parent` and `right_span` are modelled from spec §4.1: the standard flat-tree
numbering in which leaves sit at even indices, `depth(i)` is the number of
trailing one bits of `i`, a node of depth `d` and in-row offset `o` has index
`(2*o+1)*2^d - 1`, and the parent of a node is the node one level up whose
in-row offset is half its own.
-/

/-- Trailing-ones count, with fuel (`fuel = i + 1` always suffices). -/
def flatDepthAux : Nat → Nat → Nat
  | 0, _ => 0
  | fuel + 1, i => if i % 2 = 1 then flatDepthAux fuel (i / 2) + 1 else 0

/-- Modelled from the spec: flat-tree depth of an index, `trailing_ones(i)`. -/
def flatDepth (i : Nat) : Nat := flatDepthAux (i + 1) i

/-- Modelled from the spec: in-row offset of a flat-tree index. -/
def flatOffset (i : Nat) : Nat := i / 2 ^ (flatDepth i + 1)

/-- Modelled from the spec: the flat-tree index of depth `d`, offset `o`. -/
def flatIndex (d o : Nat) : Nat := (2 * o + 1) * 2 ^ d - 1

/-- Modelled from the spec: flat-tree parent of an index. -/
def flatParent (i : Nat) : Nat := flatIndex (flatDepth i + 1) (flatOffset i / 2)

/-- Modelled from the spec: rightmost leaf index spanned by a node. -/
def rightSpan (i : Nat) : Nat := (flatOffset i + 1) * 2 ^ (flatDepth i + 1) - 2

/-!
## Merkle nodes and the Merkle tree stream

From `src/datacore/src/merkle.rs` and `src/datacore/src/merkle_tree_stream/mod.rs`.
Hashes are byte lists (32 bytes in every reachable state).
-/

/-- A Merkle node (`merkle.rs`, struct `Node`): flat-tree index, covered byte
length, hash. -/
structure Node where
  index : Nat
  length : Nat
  hash : List Nat
deriving DecidableEq, Repr

/-- Embeds `NODE_SIZE` from `merkle.rs`: u64 + u32 + 32-byte hash. -/
def NODE_SIZE : Nat := 8 + 4 + 32

/-- Embeds `Node::to_bytes`.  The `ensure!(data.len() == NODE_SIZE)` can only fail when
the hash is not 32 bytes (in Rust the hash is a fixed-size array; our byte-list
model makes the check explicit). -/
def Node.toBytes (n : Node) : Option (List Nat) :=
  if n.hash.length = 32 then some (u64le n.index ++ u32le n.length ++ n.hash)
  else none

/-- Embeds `Node::from_bytes`: reads a u64, a u32, then exactly 32 hash bytes. -/
def Node.fromBytes (d : List Nat) : Option Node :=
  if NODE_SIZE ≤ d.length then
    some ⟨leVal (d.take 8), leVal ((d.drop 8).take 4), (d.drop 12).take 32⟩
  else none

/-- State of `MerkleTreeStream` (`merkle_tree_stream/mod.rs`): current roots
and the number of consumed blocks. -/
structure MerkleTreeStream where
  roots : List Node
  blocks : Nat
deriving DecidableEq, Repr

/-- The `while` merge loop of `MerkleTreeStream::next`, with fuel.  Each
iteration pops the last two roots and pushes one node, so the initial list
length bounds the number of iterations.  The parent node's length is the
u32 sum `left.length() + right.length()`, which wraps. -/
def mergeRootsAux (p : Node → Node → List Nat) : Nat → List Node → List Node
  | 0, roots => roots
  | fuel + 1, roots =>
    if 1 < roots.length then
      let left := roots.getD (roots.length - 2) ⟨0, 0, []⟩
      let right := roots.getD (roots.length - 1) ⟨0, 0, []⟩
      if flatParent left.index = flatParent right.index then
        mergeRootsAux p fuel
          (roots.dropLast.dropLast ++
            [⟨flatParent left.index, wrapU32 (left.length + right.length),
              p left right⟩])
      else roots
    else roots

/-- Embeds `MerkleTreeStream::next`: push a leaf node at flat-tree index
`2 * blocks`, run the merge loop, increment the u32 `blocks` counter (which
wraps).  The hasher's `parent` function is passed explicitly
(`HashMethods::parent`). -/
def MerkleTreeStream.next (p : Node → Node → List Nat) (s : MerkleTreeStream)
    (hash : List Nat) (length : Nat) : MerkleTreeStream :=
  let node : Node := ⟨2 * s.blocks, length, hash⟩
  let roots := s.roots ++ [node]
  ⟨mergeRootsAux p roots.length roots, wrapU32 (s.blocks + 1)⟩

/-- Embeds `MerkleTreeStream::new` / `Merkle::from_roots`: the block count is
recovered from the last root's right span. -/
def MerkleTreeStream.fromRoots (roots : List Node) : MerkleTreeStream :=
  { roots := roots,
    blocks :=
      match roots.getLast? with
      | none => 0
      | some root => 1 + rightSpan root.index / 2 }

/-- Spec-side merge loop, written from the amended claim's words over the
reversed roots list: while the last two roots (here: the first two entries)
share a flat-tree parent, pop both and push one parent node carrying
`parent_hash(L, R)` and length `(L.len + R.len) mod 2^32` (the u32 sum).
The fuel plays the same role as in `mergeRootsAux`. -/
def mergeSpecAux (p : Node → Node → List Nat) : Nat → List Node → List Node
  | 0, rev => rev
  | fuel + 1, rev =>
    match rev with
    | r :: l :: rest =>
      if flatParent l.index = flatParent r.index then
        mergeSpecAux p fuel
          (⟨flatParent l.index, wrapU32 (l.length + r.length), p l r⟩ :: rest)
      else rev
    | _ => rev

/-- Spec-side `next`, written from the amended claim's words: append a node
with flat-tree index `2 * blocks` and the given length, run the merge loop,
and count one more block modulo `2^32` (the counter is a u32). -/
def MerkleTreeStream.nextSpec (p : Node → Node → List Nat)
    (s : MerkleTreeStream) (hash : List Nat) (length : Nat) :
    MerkleTreeStream :=
  let node : Node := ⟨2 * s.blocks, length, hash⟩
  let rev := node :: s.roots.reverse
  ⟨(mergeSpecAux p rev.length rev).reverse, wrapU32 (s.blocks + 1)⟩

/-!
## Cryptographic primitives as parameters

Hashing (`hash.rs`, BLAKE3) and Ed25519 signing (`keys.rs`) are external
cryptographic code; the Core's control flow only depends on the byte lengths
of their outputs and on the boolean outcome of `verify`.  They are passed to
the embedded operations through this record; the length fields record the type
invariants of the Rust types (`Hash` is `[u8; 32]`, a signature is 64 bytes).
-/

/-- The hash and signature primitives a `Core` is parametrised by. -/
structure Crypto where
  fromLeaf : List Nat → List Nat
  fromHashes : List Nat → List Nat → Nat → List Nat
  fromRoots : List (List Nat) → List Nat → List Nat
  sign : List Nat → List Nat → List Nat → List Nat
  verify : List Nat → List Nat → List Nat → Bool
  fromLeaf_len : ∀ d, (fromLeaf d).length = 32
  fromHashes_len : ∀ a b n, (fromHashes a b n).length = 32
  sign_len : ∀ pk sk h, (sign pk sk h).length = 64

/-- Embeds `HashMethods::parent` for the Core's Merkle (`merkle.rs`, impl for `H`):
`Hash::from_hashes(left.hash, right.hash, left.length + right.length)`,
the length being the wrapping u32 sum. -/
def pNode (c : Crypto) (l r : Node) : List Nat :=
  c.fromHashes l.hash r.hash (wrapU32 (l.length + r.length))

/-- Embeds `hash_merkle` (`core.rs`): `Hash::from_roots` over the roots' hashes and
lengths. -/
def hashMerkle (c : Crypto) (m : MerkleTreeStream) : List Nat :=
  c.fromRoots (m.roots.map Node.hash) (m.roots.map Node.length)

/-!
## Blocks and signatures (`block.rs`)
-/

/-- A block signature pair (`block.rs`, struct `Signature`): 64-byte data
signature and 64-byte tree signature. -/
structure BlockSignature where
  data : List Nat
  tree : List Nat
deriving DecidableEq, Repr

/-- Embeds `SIGNATURE_LENGTH`: two 64-byte Ed25519 signatures. -/
def SIGNATURE_LENGTH : Nat := 2 * 64

/-- A block header (`block.rs`, struct `Block`). -/
structure Block where
  offset : Nat
  length : Nat
  signature : BlockSignature
deriving DecidableEq, Repr

/-- Embeds `BLOCK_LENGTH`: u64 offset + u32 length + the signature pair = 140. -/
def BLOCK_LENGTH : Nat := 8 + 4 + SIGNATURE_LENGTH

/-- Embeds `Block::to_bytes`: offset, length, data signature, tree signature. -/
def Block.toBytes (b : Block) : List Nat :=
  u64le b.offset ++ u32le b.length ++ b.signature.data ++ b.signature.tree

/-- Embeds `Block::from_bytes`: reads u64, u32 and two 64-byte signatures; fails on
input shorter than `BLOCK_LENGTH`. -/
def Block.fromBytes (d : List Nat) : Option Block :=
  if BLOCK_LENGTH ≤ d.length then
    some ⟨leVal (d.take 8), leVal ((d.drop 8).take 4),
          ⟨(d.drop 12).take 64, (d.drop 76).take 64⟩⟩
  else none

/-!
## The backing store (`IndexAccess` contract, spec §6)

An external index → bytes key-value map.  Reads are deterministic; writes may
fail, which we model by a set of failing indices (the contract gives no
stronger guarantee than best-effort writes, and the claims about I/O failure
need a store whose writes can fail).
-/

/-- A backing key-value store: association list of slots, plus the set of
slot indices at which `write` fails. -/
structure IndexStore where
  data : List (Nat × List Nat)
  failWrites : List Nat
deriving DecidableEq, Repr

/-- Embeds `IndexAccess::read`. -/
def IndexStore.read (s : IndexStore) (i : Nat) : Option (List Nat) :=
  (s.data.find? (fun p => p.fst = i)).map Prod.snd

/-- Embeds `IndexAccess::write`: fails exactly on the failing indices, otherwise
replaces the slot (the new entry is prepended; `read` returns the first
match, so the old value is shadowed). -/
def IndexStore.write (s : IndexStore) (i : Nat) (b : List Nat) :
    Except Unit IndexStore :=
  if i ∈ s.failWrites then .error ()
  else .ok ⟨(i, b) :: s.data, s.failWrites⟩

/-!
## The co-located header store (`store.rs`) and the block-header store
(`store_blocks.rs`)
-/

/-- Embeds `Store::write`: store `data ++ header` at slot `index + 1`. -/
def Store.write (s : IndexStore) (index : Nat) (data : List Nat) (block : Block) :
    Except Unit IndexStore :=
  s.write (index + 1) (data ++ block.toBytes)

/-- Embeds `Store::read`: read slot `index + 1`; absent slot is `none`; a present
value must be strictly longer than `BLOCK_LENGTH`, and its trailing
`BLOCK_LENGTH` bytes are split off as the header. -/
def Store.read (s : IndexStore) (index : Nat) :
    Except Unit (Option (List Nat × Block)) :=
  match s.read (index + 1) with
  | none => .ok none
  | some raw =>
    if BLOCK_LENGTH < raw.length then
      match Block.fromBytes (raw.drop (raw.length - BLOCK_LENGTH)) with
      | some block => .ok (some (raw.take (raw.length - BLOCK_LENGTH), block))
      | none => .error ()
    else .error ()

/-- Serialization of the Merkle roots for `Store::write_merkle`:
concatenated `Node::to_bytes`. -/
def serializeRoots : List Node → Option (List Nat)
  | [] => some []
  | n :: rest =>
    match n.toBytes, serializeRoots rest with
    | some b, some bs => some (b ++ bs)
    | _, _ => none

/-- Embeds `Store::write_merkle`: write the serialized roots at slot 0
(`STATE_INDEX`). -/
def Store.writeMerkle (s : IndexStore) (m : MerkleTreeStream) :
    Except Unit IndexStore :=
  match serializeRoots m.roots with
  | some bytes => s.write 0 bytes
  | none => .error ()

/-- The `while start < data.len()` node-parsing loop of `Store::read_merkle`,
with fuel (the data length bounds the number of 44-byte chunks). -/
def parseNodes : Nat → List Nat → Option (List Node)
  | _, [] => some []
  | 0, _ => none
  | fuel + 1, d =>
    match Node.fromBytes (d.take NODE_SIZE) with
    | some n => (parseNodes fuel (d.drop NODE_SIZE)).map (n :: ·)
    | none => none

/-- Embeds `Store::read_merkle`: absent slot 0 means empty roots; a present value
must be a whole number of serialized nodes. -/
def Store.readMerkle (s : IndexStore) : Except Unit MerkleTreeStream :=
  match s.read 0 with
  | none => .ok (MerkleTreeStream.fromRoots [])
  | some d =>
    if d.length % NODE_SIZE = 0 then
      match parseNodes d.length d with
      | some roots => .ok (MerkleTreeStream.fromRoots roots)
      | none => .error ()
    else .error ()

/-- Embeds `StoreBlocks::write`: serialize the header, check its length, store at
slot `index + 1`. -/
def StoreBlocks.write (s : IndexStore) (index : Nat) (block : Block) :
    Except Unit IndexStore :=
  let d := block.toBytes
  if d.length = BLOCK_LENGTH then s.write (index + 1) d else .error ()

/-- Embeds `StoreBlocks::read`: read slot `index + 1`; a present value must be
exactly `BLOCK_LENGTH` bytes and parse as a header. -/
def StoreBlocks.read (s : IndexStore) (index : Nat) :
    Except Unit (Option Block) :=
  match s.read (index + 1) with
  | none => .ok none
  | some d =>
    if d.length = BLOCK_LENGTH then
      match Block.fromBytes d with
      | some b => .ok (some b)
      | none => .error ()
    else .error ()

/-!
## The Core engine (`core.rs`)
-/

/-- Embeds `MAX_CORE_LENGTH` (`core.rs`): `(u32::MAX - 1) as usize`. -/
def MAX_CORE_LENGTH : Nat := (2 ^ 32 - 1) - 1

/-- Embeds `MAX_BLOCK_SIZE` (`core.rs`): `u32::MAX as usize`. -/
def MAX_BLOCK_SIZE : Nat := 2 ^ 32 - 1

/-- The in-memory state of a `Core` plus its two backing stores. -/
structure CoreState where
  store : IndexStore
  blocks : IndexStore
  merkle : MerkleTreeStream
  publicKey : List Nat
  secretKey : Option (List Nat)
  length : Nat
  byteLength : Nat
deriving DecidableEq, Repr

/-- Embeds `Core::new`: read the persisted roots (absent slot 0 means empty),
recover `length` from the root set, recover `byte_length` from the last
block's header. -/
def Core.new (store blocks : IndexStore) (pk : List Nat)
    (sk : Option (List Nat)) : Except Unit CoreState :=
  match Store.readMerkle store with
  | .error _ => .error ()
  | .ok merkle =>
    let length := merkle.blocks
    if length = 0 then .ok ⟨store, blocks, merkle, pk, sk, length, 0⟩
    else
      match StoreBlocks.read blocks (length - 1) with
      | .error _ => .error ()
      | .ok none => .error ()
      | .ok (some blk) =>
        .ok ⟨store, blocks, merkle, pk, sk, length, blk.offset + blk.length⟩

/-- The tail of `Core::append` after the signature is settled: build the
header, run both store writes (the `zip` runs both futures, so each store is
mutated independently of the other's outcome), then persist the roots, then
bump `byte_length` and `length`.  The caller has already committed the working
Merkle to the in-memory state, exactly as `core.rs` does before the writes. -/
def appendCommit (s : CoreState) (data : List Nat) (sig : BlockSignature) :
    Except Unit Unit × CoreState :=
  let block : Block := ⟨s.byteLength, data.length, sig⟩
  let d := Store.write s.store s.length data block
  let b := StoreBlocks.write s.blocks s.length block
  let s1 : CoreState :=
    { s with store := match d with | .ok st => st | .error _ => s.store,
             blocks := match b with | .ok bl => bl | .error _ => s.blocks }
  match d, b with
  | .error _, _ => (.error (), s1)
  | _, .error _ => (.error (), s1)
  | .ok _, .ok _ =>
    match Store.writeMerkle s1.store s.merkle with
    | .error _ => (.error (), s1)
    | .ok st2 =>
      (.ok (), { s1 with store := st2,
                         byteLength := s.byteLength + data.length,
                         length := s.length + 1 })

/-- Embeds `Core::append`.  With a supplied signature (replication path) both
signature checks run against the public key before the working Merkle is
committed; without one (authoring path) the secret key is required and the
signature pair is produced.  Returns the call's result together with the
state the caller observes afterwards. -/
def Core.append (c : Crypto) (s : CoreState) (data : List Nat)
    (signature : Option BlockSignature) : Except Unit Unit × CoreState :=
  if MAX_BLOCK_SIZE < data.length then (.error (), s)
  else
    match signature with
    | some sig =>
      let dataHash := c.fromLeaf data
      if c.verify s.publicKey dataHash sig.data then
        let merkle := s.merkle.next (pNode c) dataHash data.length
        if c.verify s.publicKey (hashMerkle c merkle) sig.tree then
          appendCommit { s with merkle := merkle } data sig
        else (.error (), s)
      else (.error (), s)
    | none =>
      match s.secretKey with
      | none => (.error (), s)
      | some secret =>
        let dataHash := c.fromLeaf data
        let dataSign := c.sign s.publicKey secret dataHash
        let merkle := s.merkle.next (pNode c) dataHash data.length
        let treeSign := c.sign s.publicKey secret (hashMerkle c merkle)
        appendCommit { s with merkle := merkle } data ⟨dataSign, treeSign⟩

/-- Embeds `Core::get`: bound check against `MAX_CORE_LENGTH`, absence for indices
at or beyond the current length, otherwise read the header and the payload
and return `(data, header.signature)`.  A missing slot below the length is an
error at the core boundary (the code consumes the block unconditionally). -/
def Core.get (s : CoreState) (index : Nat) :
    Except Unit (Option (List Nat × BlockSignature)) :=
  if MAX_CORE_LENGTH ≤ index then .error ()
  else if s.length ≤ index then .ok none
  else
    match StoreBlocks.read s.blocks index with
    | .error _ => .error ()
    | .ok none => .error ()
    | .ok (some block) =>
      match Store.read s.store index with
      | .error _ => .error ()
      | .ok none => .error ()
      | .ok (some (data, _)) => .ok (some (data, block.signature))

/-- A sequence of authoring-path appends; `none` as soon as one fails. -/
def appendAll (c : Crypto) : CoreState → List (List Nat) → Option CoreState
  | s, [] => some s
  | s, d :: ds =>
    match Core.append c s d none with
    | (.ok _, s1) => appendAll c s1 ds
    | (.error _, _) => none

/-- Block `i` of the Core holds payload `d`: both stores carry the expected
slot values at index `i + 1`, for some well-formed header. -/
def goodBlockAt (s : CoreState) (d : List Nat) (i : Nat) : Prop :=
  ∃ blk : Block, blk.signature.data.length = 64 ∧
    blk.signature.tree.length = 64 ∧
    s.store.read (i + 1) = some (d ++ blk.toBytes) ∧
    s.blocks.read (i + 1) = some blk.toBytes

/-- Invariant of a Core that has consumed exactly the payload sequence `ds`
over non-failing stores. -/
def CoreInv (ds : List (List Nat)) (s : CoreState) : Prop :=
  s.store.failWrites = [] ∧ s.blocks.failWrites = [] ∧
  s.length = ds.length ∧
  (∀ n ∈ s.merkle.roots, n.hash.length = 32) ∧
  ∀ i (h : i < ds.length), goodBlockAt s (ds.get ⟨i, h⟩) i

/-!
## CoreReplica (`libdata/src/replication/core_replica.rs`)

The message types come from `replica_trait.rs`, which is missing from the
sources; `Request` and `Data` are modelled from the spec (§4.7 wire format):
`Request{index:u32}` and
`Data{index:u32, data:bytes, data_signature:bytes, tree_signature:bytes}`.
-/

/-- Modelled from the spec: a `Request` message. -/
structure Request where
  index : Nat
deriving DecidableEq, Repr

/-- Modelled from the spec: a `Data` message. -/
structure DataMsg where
  index : Nat
  data : List Nat
  dataSignature : List Nat
  treeSignature : List Nat
deriving DecidableEq, Repr

/-- Embeds `ed25519_dalek::Signature::from_bytes`: succeeds exactly on 64-byte
input. -/
def sigFromBytes (b : List Nat) : Option (List Nat) :=
  if b.length = 64 then some b else none

/-- The observable outcome of `CoreReplica::on_data`: a Rust panic (from the
`unwrap` on signature parsing), a propagated error, or a reply. -/
inductive OnDataOutcome where
  | panicked
  | failed
  | replied (req : Option Request)
deriving DecidableEq, Repr

/-- Embeds `CoreReplica::on_data`: when the message's index matches the local
length, reconstruct the signature pair (panicking if a parse fails, per the
`unwrap`s) and feed it to `Core::append`; on success answer with the next
index unless the cap is reached.  Otherwise answer with the local length. -/
def onData (c : Crypto) (core : CoreState) (d : DataMsg) :
    OnDataOutcome × CoreState :=
  if d.index = core.length then
    match sigFromBytes d.dataSignature, sigFromBytes d.treeSignature with
    | some ds, some ts =>
      match Core.append c core d.data (some ⟨ds, ts⟩) with
      | (.ok _, core1) =>
        if MAX_CORE_LENGTH ≤ core1.length then (.replied none, core1)
        else (.replied (some ⟨d.index + 1⟩), core1)
      | (.error _, core1) => (.failed, core1)
    | _, _ => (.panicked, core)
  else (.replied (some ⟨core.length⟩), core)

/-!
## ChannelMap (`protocol/src/channels.rs`)

Discovery keys are modelled as naturals; the map from keys to discovery keys
(an external keyed hash) is a parameter.  Only the parts reachable from
`attach_local` and `remove` are embedded.
-/

/-- A channel handle: discovery key, optional local `(id, key)` state,
optional remote `(id, capability)` state. -/
structure ChannelHandle where
  discoveryKey : Nat
  localState : Option (Nat × Nat)
  remoteState : Option (Nat × Option (List Nat))
deriving DecidableEq, Repr

/-- Embeds `ChannelHandle::attach_local`. -/
def ChannelHandle.attachLocal (h : ChannelHandle) (localId : Nat) (key : Nat) :
    ChannelHandle :=
  { h with localState := some (localId, key) }

/-- Embeds `ChannelHandle::new_local`. -/
def ChannelHandle.newLocal (localId : Nat) (dk : Nat) (key : Nat) :
    ChannelHandle :=
  ⟨dk, some (localId, key), none⟩

/-- The `ChannelMap` state: channels keyed by discovery key, and the two ID
slot vectors. -/
structure ChannelMap where
  channels : List (Nat × ChannelHandle)
  localId : List (Option Nat)
  remoteId : List (Option Nat)
deriving DecidableEq, Repr

/-- Embeds `ChannelMap::new`: one `None` sentinel in `local_id` so that allocation
starts at 1 (slot 0 is reserved for stream-level messages). -/
def ChannelMap.new : ChannelMap := ⟨[], [none], []⟩

/-- Embeds `ChannelMap::alloc_local`: `self.local_id.iter().skip(1).position(Option::is_none)`,
falling back to pushing a fresh slot. -/
def ChannelMap.allocLocal (m : ChannelMap) : Nat × ChannelMap :=
  match (m.localId.drop 1).findIdx? Option.isNone with
  | some emptyId => (emptyId, m)
  | none => (m.localId.length, { m with localId := m.localId ++ [none] })

/-- Embeds `ChannelMap::attach_local`: allocate a local ID, attach it to the channel
for the key's discovery key (inserting the channel if absent), record the
discovery key in the ID slot.  Also returns the allocated ID. -/
def ChannelMap.attachLocal (dk : Nat → Nat) (m : ChannelMap) (key : Nat) :
    ChannelMap × Nat :=
  let dkv := dk key
  let alloc := m.allocLocal
  let idRaw := alloc.fst
  let m1 := alloc.snd
  let channels :=
    if (m1.channels.find? (fun p => p.fst = dkv)).isSome then
      m1.channels.map
        (fun p => if p.fst = dkv then (p.fst, p.snd.attachLocal idRaw key) else p)
    else m1.channels ++ [(dkv, ChannelHandle.newLocal idRaw dkv key)]
  ({ m1 with channels := channels, localId := m1.localId.set idRaw (some dkv) },
   idRaw)

/-- Embeds `ChannelMap::remove`: clear the channel's local and remote ID slots, then
drop the channel. -/
def ChannelMap.remove (m : ChannelMap) (dkv : Nat) : ChannelMap :=
  let m2 :=
    match m.channels.find? (fun p => p.fst = dkv) with
    | some pair =>
      let m1 :=
        match pair.snd.localState with
        | some ls => { m with localId := m.localId.set ls.fst none }
        | none => m
      match pair.snd.remoteState with
      | some rs => { m1 with remoteId := m1.remoteId.set rs.fst none }
      | none => m1
    | none => m
  { m2 with channels := m2.channels.filter (fun p => ¬ p.fst = dkv) }

/-!
## Concrete instances used by witnesses and counterexamples
-/

/-- A trivial crypto instance whose verification always succeeds. -/
def cryptoTriv : Crypto where
  fromLeaf _ := List.replicate 32 0
  fromHashes _ _ _ := List.replicate 32 0
  fromRoots _ _ := List.replicate 32 0
  sign _ _ _ := List.replicate 64 0
  verify _ _ _ := true
  fromLeaf_len _ := by simp
  fromHashes_len _ _ _ := by simp
  sign_len _ _ _ := by simp

/-- A crypto instance whose verification always fails. -/
def cryptoRefuse : Crypto where
  fromLeaf _ := List.replicate 32 0
  fromHashes _ _ _ := List.replicate 32 0
  fromRoots _ _ := List.replicate 32 0
  sign _ _ _ := List.replicate 64 0
  verify _ _ _ := false
  fromLeaf_len _ := by simp
  fromHashes_len _ _ _ := by simp
  sign_len _ _ _ := by simp

/-- An empty backing store whose writes never fail. -/
def emptyStore : IndexStore := ⟨[], []⟩

/-- An empty writable Core (empty stores, secret key present). -/
def coreWritable : CoreState :=
  ⟨emptyStore, emptyStore, ⟨[], 0⟩, [], some [], 0, 0⟩

/-- An empty read-only Core over non-failing stores. -/
def coreReadOnly : CoreState :=
  ⟨emptyStore, emptyStore, ⟨[], 0⟩, [], none, 0, 0⟩

/-- An empty writable Core whose data store fails the write at slot 1
(the slot the first append writes its payload to). -/
def coreFailingStore : CoreState :=
  ⟨⟨[], [1]⟩, emptyStore, ⟨[], 0⟩, [], some [], 0, 0⟩

/-- A 64-byte signature literal. -/
def sig64 : List Nat := List.replicate 64 1

/-!
## Supporting lemmas
-/

theorem bytesLE_length (k n : Nat) : (bytesLE k n).length = k := by
  induction k generalizing n with
  | zero => rfl
  | succ k ih => simp [bytesLE, ih]

theorem u64le_length (n : Nat) : (u64le n).length = 8 := bytesLE_length 8 n

theorem u32le_length (n : Nat) : (u32le n).length = 4 := bytesLE_length 4 n

theorem Block.toBytes_length (b : Block)
    (h1 : b.signature.data.length = 64) (h2 : b.signature.tree.length = 64) :
    b.toBytes.length = BLOCK_LENGTH := by
  simp [Block.toBytes, BLOCK_LENGTH, SIGNATURE_LENGTH, u64le_length,
        u32le_length, h1, h2]

theorem getD_append_cons {α : Type} (xs : List α) (a : α) (ys : List α)
    (d : α) : (xs ++ a :: ys).getD xs.length d = a := by
  induction xs with
  | nil => rfl
  | cons x xs ih => simpa using ih

theorem getD_append_pair_left {α : Type} (xs : List α) (a b : α) (d : α) :
    (xs ++ [a, b]).getD xs.length d = a :=
  getD_append_cons xs a [b] d

theorem getD_append_pair_right {α : Type} (xs : List α) (a b : α) (d : α) :
    (xs ++ [a, b]).getD (xs.length + 1) d = b := by
  have h := getD_append_cons (xs ++ [a]) b [] d
  simpa [List.append_assoc] using h

theorem dropLast_append_pair {α : Type} (xs : List α) (a b : α) :
    (xs ++ [a, b]).dropLast.dropLast = xs := by
  have h1 : xs ++ [a, b] = (xs ++ [a]) ++ [b] := by simp
  rw [h1, List.dropLast_concat, List.dropLast_concat]

theorem IndexStore.write_updates (s : IndexStore) (i : Nat) (b : List Nat)
    (h : ¬ i ∈ s.failWrites) :
    ∃ s1, s.write i b = .ok s1 ∧ s1.read i = some b ∧
      (∀ j, ¬ j = i → s1.read j = s.read j) ∧
      s1.failWrites = s.failWrites := by
  refine ⟨⟨(i, b) :: s.data, s.failWrites⟩, ?_, ?_, ?_, rfl⟩
  · simp [IndexStore.write, h]
  · simp [IndexStore.read, List.find?_cons]
  · intro j hj
    have hij : ¬ i = j := fun hc => hj hc.symm
    simp [IndexStore.read, List.find?_cons, hij]

theorem Store.write_slot_spec (s : IndexStore) (idx : Nat) (data : List Nat)
    (blk : Block) (h : ¬ (idx + 1) ∈ s.failWrites) :
    ∃ s1, Store.write s idx data blk = .ok s1 ∧
      s1.read (idx + 1) = some (data ++ blk.toBytes) ∧
      (∀ j, ¬ j = idx + 1 → s1.read j = s.read j) ∧
      s1.failWrites = s.failWrites := by
  obtain ⟨s1, hw, hr, ho, hf⟩ :=
    IndexStore.write_updates s (idx + 1) (data ++ blk.toBytes) h
  exact ⟨s1, hw, hr, ho, hf⟩

theorem StoreBlocks.write_header_spec (s : IndexStore) (idx : Nat) (blk : Block)
    (hlen : blk.toBytes.length = BLOCK_LENGTH)
    (h : ¬ (idx + 1) ∈ s.failWrites) :
    ∃ s1, StoreBlocks.write s idx blk = .ok s1 ∧
      s1.read (idx + 1) = some blk.toBytes ∧
      (∀ j, ¬ j = idx + 1 → s1.read j = s.read j) ∧
      s1.failWrites = s.failWrites := by
  obtain ⟨s1, hw, hr, ho, hf⟩ := IndexStore.write_updates s (idx + 1) blk.toBytes h
  refine ⟨s1, ?_, hr, ho, hf⟩
  simp [StoreBlocks.write, hlen, hw]

theorem serializeRoots_isSome (roots : List Node)
    (h : ∀ n ∈ roots, n.hash.length = 32) :
    ∃ bs, serializeRoots roots = some bs := by
  induction roots with
  | nil => exact ⟨[], rfl⟩
  | cons n rest ih =>
    have hn : n.hash.length = 32 := h n (List.mem_cons_self n rest)
    obtain ⟨bs, hbs⟩ := ih (fun m hm => h m (List.mem_cons_of_mem n hm))
    refine ⟨(u64le n.index ++ u32le n.length ++ n.hash) ++ bs, ?_⟩
    simp [serializeRoots, Node.toBytes, hn, hbs]

theorem Store.writeMerkle_spec (s : IndexStore) (m : MerkleTreeStream)
    (hroots : ∀ n ∈ m.roots, n.hash.length = 32) (h : ¬ 0 ∈ s.failWrites) :
    ∃ s1, Store.writeMerkle s m = .ok s1 ∧
      (∀ j, ¬ j = 0 → s1.read j = s.read j) ∧
      s1.failWrites = s.failWrites := by
  obtain ⟨bs, hbs⟩ := serializeRoots_isSome m.roots hroots
  obtain ⟨s1, hw, _, ho, hf⟩ := IndexStore.write_updates s 0 bs h
  refine ⟨s1, ?_, ho, hf⟩
  simp [Store.writeMerkle, hbs, hw]

theorem mergeRootsAux_hash_length (p : Node → Node → List Nat)
    (hp : ∀ l r, (p l r).length = 32) :
    ∀ (fuel : Nat) (roots : List Node),
      (∀ n ∈ roots, n.hash.length = 32) →
      ∀ n ∈ mergeRootsAux p fuel roots, n.hash.length = 32 := by
  intro fuel
  induction fuel with
  | zero => intro roots h; simpa [mergeRootsAux] using h
  | succ fuel ih =>
    intro roots h
    unfold mergeRootsAux
    split
    · dsimp only
      split
      · apply ih
        intro n hn
        rcases List.mem_append.mp hn with hmem | hmem
        · exact h n ((List.dropLast_sublist _).subset
            ((List.dropLast_sublist _).subset hmem))
        · have hn2 := List.mem_singleton.mp hmem
          subst hn2
          exact hp _ _
      · exact h
    · exact h

theorem next_hash_length (p : Node → Node → List Nat)
    (hp : ∀ l r, (p l r).length = 32) (s : MerkleTreeStream)
    (hash : List Nat) (len : Nat)
    (hroots : ∀ n ∈ s.roots, n.hash.length = 32) (hh : hash.length = 32) :
    ∀ n ∈ (s.next p hash len).roots, n.hash.length = 32 := by
  apply mergeRootsAux_hash_length p hp
  intro n hn
  rcases List.mem_append.mp hn with hmem | hmem
  · exact hroots n hmem
  · have hn2 := List.mem_singleton.mp hmem
    subst hn2
    exact hh

theorem appendCommit_ok (s : CoreState) (data : List Nat) (sig : BlockSignature)
    (hfw1 : s.store.failWrites = []) (hfw2 : s.blocks.failWrites = [])
    (hs64a : sig.data.length = 64) (hs64b : sig.tree.length = 64)
    (hroots : ∀ n ∈ s.merkle.roots, n.hash.length = 32) :
    ∃ st2 bl, appendCommit s data sig =
      (.ok (), { s with store := st2, blocks := bl,
                        byteLength := s.byteLength + data.length,
                        length := s.length + 1 }) ∧
      st2.read (s.length + 1) =
        some (data ++ Block.toBytes ⟨s.byteLength, data.length, sig⟩) ∧
      (∀ j, ¬ j = s.length + 1 → ¬ j = 0 → st2.read j = s.store.read j) ∧
      st2.failWrites = [] ∧
      bl.read (s.length + 1) =
        some (Block.toBytes ⟨s.byteLength, data.length, sig⟩) ∧
      (∀ j, ¬ j = s.length + 1 → bl.read j = s.blocks.read j) ∧
      bl.failWrites = [] := by
  have hblen : (Block.toBytes ⟨s.byteLength, data.length, sig⟩).length =
      BLOCK_LENGTH := Block.toBytes_length _ hs64a hs64b
  obtain ⟨st, hst, hstr, hsto, hstf⟩ :=
    Store.write_slot_spec s.store s.length data ⟨s.byteLength, data.length, sig⟩
      (by rw [hfw1]; simp)
  obtain ⟨bl, hbl, hblr, hblo, hblf⟩ :=
    StoreBlocks.write_header_spec s.blocks s.length ⟨s.byteLength, data.length, sig⟩
      hblen (by rw [hfw2]; simp)
  obtain ⟨st2, hst2, hst2o, hst2f⟩ :=
    Store.writeMerkle_spec st s.merkle hroots (by rw [hstf, hfw1]; simp)
  refine ⟨st2, bl, ?_, ?_, ?_, ?_, ?_, hblo, ?_⟩
  · simp only [appendCommit, hst, hbl, hst2]
  · rw [hst2o (s.length + 1) (by omega)]
    exact hstr
  · intro j hj1 hj0
    rw [hst2o j hj0, hsto j hj1]
  · rw [hst2f, hstf, hfw1]
  · exact hblr
  · rw [hblf, hfw2]

theorem append_auth_step (c : Crypto) (ds : List (List Nat)) (s : CoreState)
    (d : List Nat) (hinv : CoreInv ds s) (hsk : s.secretKey.isSome)
    (hd : d.length ≤ MAX_BLOCK_SIZE) :
    ∃ s1, Core.append c s d none = (.ok (), s1) ∧ CoreInv (ds ++ [d]) s1 ∧
      s1.secretKey = s.secretKey := by
  obtain ⟨hfw1, hfw2, hlen, hroots, hblocks⟩ := hinv
  obtain ⟨sk, hsk2⟩ := Option.isSome_iff_exists.mp hsk
  have hroots1 : ∀ n ∈ (s.merkle.next (pNode c) (c.fromLeaf d) d.length).roots,
      n.hash.length = 32 :=
    next_hash_length _ (fun l r => c.fromHashes_len _ _ _) s.merkle _ _ hroots
      (c.fromLeaf_len d)
  obtain ⟨st2, bl, hcommit, hst2r, hst2o, hst2f, hblr, hblo, hblf⟩ :=
    appendCommit_ok
      { s with merkle := s.merkle.next (pNode c) (c.fromLeaf d) d.length,
               secretKey := some sk } d
      ⟨c.sign s.publicKey sk (c.fromLeaf d),
       c.sign s.publicKey sk
         (hashMerkle c (s.merkle.next (pNode c) (c.fromLeaf d) d.length))⟩
      hfw1 hfw2 (c.sign_len _ _ _) (c.sign_len _ _ _) hroots1
  refine ⟨⟨st2, bl, s.merkle.next (pNode c) (c.fromLeaf d) d.length,
          s.publicKey, some sk, s.length + 1, s.byteLength + d.length⟩,
        ?_, ?_, hsk2.symm⟩
  · have hnotbig : ¬ MAX_BLOCK_SIZE < d.length := Nat.not_lt.mpr hd
    simp only [Core.append, if_neg hnotbig, hsk2]
    exact hcommit
  · dsimp only at hst2r hst2o hblr hblo
    refine ⟨hst2f, hblf, by simp [hlen], hroots1, ?_⟩
    intro i hi
    have hi2 : i < ds.length + 1 := by simpa using hi
    by_cases hilt : i < ds.length
    · obtain ⟨blki, h64a, h64b, hsr, hbr⟩ := hblocks i hilt
      have hget : (ds ++ [d]).get ⟨i, hi⟩ = ds.get ⟨i, hilt⟩ := by
        rw [List.get_eq_getElem, List.get_eq_getElem]
        exact List.getElem_append_left hilt
      rw [hget]
      refine ⟨blki, h64a, h64b, ?_, ?_⟩
      · show st2.read (i + 1) = _
        rw [hst2o (i + 1) (by omega) (by omega)]
        exact hsr
      · show bl.read (i + 1) = _
        rw [hblo (i + 1) (by omega)]
        exact hbr
    · have hieq : i = ds.length := by omega
      subst hieq
      have hget : (ds ++ [d]).get ⟨ds.length, hi⟩ = d := by
        simp [List.get_eq_getElem]
      rw [hget]
      refine ⟨⟨s.byteLength, d.length,
        ⟨c.sign s.publicKey sk (c.fromLeaf d),
         c.sign s.publicKey sk
           (hashMerkle c (s.merkle.next (pNode c) (c.fromLeaf d) d.length))⟩⟩,
        c.sign_len _ _ _, c.sign_len _ _ _, ?_, ?_⟩
      · show st2.read (ds.length + 1) = _
        rw [← hlen]
        exact hst2r
      · show bl.read (ds.length + 1) = _
        rw [← hlen]
        exact hblr

theorem appendAll_spec (c : Crypto) :
    ∀ (rem ds : List (List Nat)) (s : CoreState), CoreInv ds s →
      s.secretKey.isSome → (∀ d ∈ rem, d.length ≤ MAX_BLOCK_SIZE) →
      ∃ s1, appendAll c s rem = some s1 ∧ CoreInv (ds ++ rem) s1 := by
  intro rem
  induction rem with
  | nil =>
    intro ds s hinv _ _
    exact ⟨s, rfl, by simpa using hinv⟩
  | cons d rem ih =>
    intro ds s hinv hsk hrem
    obtain ⟨s1, happ, hinv1, hsk1⟩ :=
      append_auth_step c ds s d hinv hsk (hrem d (List.mem_cons_self d rem))
    obtain ⟨s2, hall, hinv2⟩ := ih (ds ++ [d]) s1 hinv1 (by rw [hsk1]; exact hsk)
      (fun x hx => hrem x (List.mem_cons_of_mem d hx))
    refine ⟨s2, ?_, by simpa using hinv2⟩
    simp [appendAll, happ, hall]

theorem CoreInv_get (ds : List (List Nat)) (s : CoreState) (hinv : CoreInv ds s)
    (i : Nat) (h : i < ds.length) (hlt : i < MAX_CORE_LENGTH)
    (hne : ¬ ds.get ⟨i, h⟩ = []) :
    ∃ sig, Core.get s i = .ok (some (ds.get ⟨i, h⟩, sig)) := by
  obtain ⟨hfw1, hfw2, hlen, hroots, hblocks⟩ := hinv
  obtain ⟨blk, h64a, h64b, hsr, hbr⟩ := hblocks i h
  have hblen : blk.toBytes.length = BLOCK_LENGTH :=
    Block.toBytes_length blk h64a h64b
  have hlb : ¬ MAX_CORE_LENGTH ≤ i := by omega
  have hll : ¬ s.length ≤ i := by omega
  have hbread : StoreBlocks.read s.blocks i = .ok (some
      ⟨leVal (blk.toBytes.take 8), leVal ((blk.toBytes.drop 8).take 4),
       ⟨(blk.toBytes.drop 12).take 64, (blk.toBytes.drop 76).take 64⟩⟩) := by
    simp [StoreBlocks.read, hbr, hblen, Block.fromBytes]
  have hrawlen : (ds.get ⟨i, h⟩ ++ blk.toBytes).length =
      (ds.get ⟨i, h⟩).length + BLOCK_LENGTH := by simp [hblen]
  have hpos : 0 < (ds.get ⟨i, h⟩).length := List.length_pos.mpr hne
  have hgt : BLOCK_LENGTH < (ds.get ⟨i, h⟩ ++ blk.toBytes).length := by omega
  have hix : (ds.get ⟨i, h⟩ ++ blk.toBytes).length - BLOCK_LENGTH =
      (ds.get ⟨i, h⟩).length := by omega
  have hdrop : (ds.get ⟨i, h⟩ ++ blk.toBytes).drop
      ((ds.get ⟨i, h⟩ ++ blk.toBytes).length - BLOCK_LENGTH) = blk.toBytes := by
    rw [hix, List.drop_left]
  have htake : (ds.get ⟨i, h⟩ ++ blk.toBytes).take
      ((ds.get ⟨i, h⟩ ++ blk.toBytes).length - BLOCK_LENGTH) = ds.get ⟨i, h⟩ := by
    rw [hix, List.take_left]
  have hsread : Store.read s.store i = .ok (some (ds.get ⟨i, h⟩,
      ⟨leVal (blk.toBytes.take 8), leVal ((blk.toBytes.drop 8).take 4),
       ⟨(blk.toBytes.drop 12).take 64, (blk.toBytes.drop 76).take 64⟩⟩)) := by
    rw [Store.read, hsr]
    simp only [if_pos hgt, hdrop, htake]
    simp [Block.fromBytes, hblen]
  refine ⟨⟨(blk.toBytes.drop 12).take 64, (blk.toBytes.drop 76).take 64⟩, ?_⟩
  simp only [Core.get, if_neg hlb, if_neg hll, hbread, hsread]

/-!
## Claim theorems
-/

/-- C2: if either signature check of a replication-path append fails, the
append returns an error and the whole Core state — length, byte length,
in-memory Merkle and both backing stores — is exactly the state from before
the call. -/
theorem claim_c2 (c : Crypto) (s : CoreState) (data : List Nat)
    (sig : BlockSignature)
    (h : c.verify s.publicKey (c.fromLeaf data) sig.data = false ∨
         c.verify s.publicKey
           (hashMerkle c (s.merkle.next (pNode c) (c.fromLeaf data) data.length))
           sig.tree = false) :
    Core.append c s data (some sig) = (.error (), s) := by
  unfold Core.append
  split
  · rfl
  · rcases h with h | h
    · simp [h]
    · cases hv : c.verify s.publicKey (c.fromLeaf data) sig.data
      · simp [hv]
      · simp [hv, h]

/-- Witness for C2 at a concrete refusing verifier. -/
theorem claim_c2_witness :
    Core.append cryptoRefuse coreWritable [0] (some ⟨sig64, sig64⟩) =
      (.error (), coreWritable) :=
  claim_c2 cryptoRefuse coreWritable [0] ⟨sig64, sig64⟩ (Or.inl rfl)

/-- C3 (amended): `MAX_CORE_LENGTH` is `u32::MAX - 1 = 2^32 - 2`, and it is
the bound `Core::get` checks: `get` at any index from `MAX_CORE_LENGTH` on is
an error in every state. -/
theorem claim_c3 :
    MAX_CORE_LENGTH = 2 ^ 32 - 2 ∧
    ∀ s : CoreState, Core.get s MAX_CORE_LENGTH = .error () :=
  ⟨by decide, fun s => by simp [Core.get]⟩

/-- C3 counterexample: `MAX_CORE_LENGTH` is not `2^32 - 1`. -/
theorem claim_c3_counterexample : ¬ MAX_CORE_LENGTH = 2 ^ 32 - 1 := by decide

/-- C5 (amended): `get(i)` is a successful `none` for every index at or
beyond the length that stays below `MAX_CORE_LENGTH`; the `ensure!` bound
makes indices from `MAX_CORE_LENGTH` on an error instead. -/
theorem claim_c5 (s : CoreState) (i : Nat) (h1 : s.length ≤ i)
    (h2 : i < MAX_CORE_LENGTH) : Core.get s i = .ok none := by
  unfold Core.get
  rw [if_neg (by omega), if_pos h1]

/-- C5 counterexample: on an empty Core, `get` at index
`MAX_CORE_LENGTH = 4294967294`, which is `≥ len() = 0`, is an error rather
than a successful `none`. -/
theorem claim_c5_counterexample :
    coreReadOnly.length = 0 ∧ Core.get coreReadOnly 4294967294 = .error () := by
  constructor
  · rfl
  · decide

/-- Witness for C5 at a concrete state and index. -/
theorem claim_c5_witness :
    coreReadOnly.length ≤ 3 ∧ 3 < MAX_CORE_LENGTH ∧
      Core.get coreReadOnly 3 = .ok none :=
  ⟨by decide, by decide, claim_c5 coreReadOnly 3 (by decide) (by decide)⟩

/-- C7: evaluating `ChannelMap` at the sequence attach(10), attach(20),
remove(10), attach(30) shows the last attach is handed local channel ID 0 —
`alloc_local`'s `skip(1)` makes `position` return an index that is one short
of the true slot index, so slot 0 is allocated, contradicting the reservation
of channel 0. -/
theorem claim_c7 :
    (ChannelMap.attachLocal id
      ((ChannelMap.attachLocal id
        (ChannelMap.attachLocal id ChannelMap.new 10).fst 20).fst.remove 10)
      30).snd = 0 ∧
    (ChannelMap.attachLocal id
      ((ChannelMap.attachLocal id
        (ChannelMap.attachLocal id ChannelMap.new 10).fst 20).fst.remove 10)
      30).fst.localId.getD 0 none = some 30 := by
  constructor
  · decide
  · decide

/-- C9: a `Data` message whose index matches the local length but whose data
signature is not 64 bytes long makes `on_data` panic (the `unwrap` on
`Signature::from_bytes`), instead of surfacing an error. -/
theorem claim_c9 :
    ([] : List Nat).length ≠ 64 ∧
    onData cryptoTriv coreWritable ⟨0, [], [], []⟩ = (.panicked, coreWritable) := by
  constructor
  · decide
  · decide

/-- C10: writing a block with an empty payload stores exactly
`BLOCK_LENGTH = 140` bytes and succeeds, and reading the same index back is
an error, because `Store::read` demands strictly more than `BLOCK_LENGTH`
bytes. -/
theorem claim_c10 (s : IndexStore) (idx : Nat) (blk : Block)
    (h1 : blk.signature.data.length = 64) (h2 : blk.signature.tree.length = 64)
    (h3 : ¬ (idx + 1) ∈ s.failWrites) :
    ∃ s1, Store.write s idx [] blk = .ok s1 ∧
      IndexStore.read s1 (idx + 1) = some blk.toBytes ∧
      blk.toBytes.length = BLOCK_LENGTH ∧
      Store.read s1 idx = .error () := by
  refine ⟨⟨(idx + 1, blk.toBytes) :: s.data, s.failWrites⟩, ?_, ?_, ?_, ?_⟩
  · simp [Store.write, IndexStore.write, h3]
  · simp [IndexStore.read, List.find?]
  · exact blk.toBytes_length h1 h2
  · simp [Store.read, IndexStore.read, List.find?, blk.toBytes_length h1 h2]

/-- Witness for C10 at a concrete store and block. -/
theorem claim_c10_witness :
    ∃ s1, Store.write emptyStore 0 [] ⟨0, 0, ⟨sig64, sig64⟩⟩ = .ok s1 ∧
      IndexStore.read s1 1 = some (Block.toBytes ⟨0, 0, ⟨sig64, sig64⟩⟩) ∧
      (Block.toBytes ⟨0, 0, ⟨sig64, sig64⟩⟩).length = BLOCK_LENGTH ∧
      Store.read s1 0 = .error () :=
  claim_c10 emptyStore 0 ⟨0, 0, ⟨sig64, sig64⟩⟩ (by decide) (by decide) (by decide)

/-- On every error exit of `appendCommit` the returned state keeps the
caller's `length` and `byteLength` (only the stores and the already-committed
Merkle may differ). -/
theorem appendCommit_error_state (s : CoreState) (data : List Nat)
    (sig : BlockSignature) (h : (appendCommit s data sig).1 = .error ()) :
    (appendCommit s data sig).2.length = s.length ∧
    (appendCommit s data sig).2.byteLength = s.byteLength := by
  rcases hd : Store.write s.store s.length data ⟨s.byteLength, data.length, sig⟩
    with e | st
  · constructor <;> simp [appendCommit, hd]
  · rcases hb : StoreBlocks.write s.blocks s.length ⟨s.byteLength, data.length, sig⟩
      with e | bl
    · constructor <;> simp [appendCommit, hd, hb]
    · rcases hm : Store.writeMerkle st s.merkle with e | st2
      · constructor <;> simp [appendCommit, hd, hb, hm]
      · exfalso
        simp [appendCommit, hd, hb, hm] at h

/-- C4 (amended): every append that returns an error leaves the in-memory
`length` and `byte_length` unchanged; the in-memory Merkle, however, is
committed before the writes, so it may already contain the new leaf when a
store write fails. -/
theorem claim_c4 (c : Crypto) (s : CoreState) (data : List Nat)
    (signature : Option BlockSignature)
    (h : (Core.append c s data signature).1 = .error ()) :
    (Core.append c s data signature).2.length = s.length ∧
    (Core.append c s data signature).2.byteLength = s.byteLength := by
  by_cases hsz : MAX_BLOCK_SIZE < data.length
  · constructor <;> simp [Core.append, hsz]
  · cases signature with
    | some sig =>
      cases hv : c.verify s.publicKey (c.fromLeaf data) sig.data with
      | false => constructor <;> simp [Core.append, hsz, hv]
      | true =>
        cases hv2 : c.verify s.publicKey
            (hashMerkle c (s.merkle.next (pNode c) (c.fromLeaf data) data.length))
            sig.tree with
        | false => constructor <;> simp [Core.append, hsz, hv, hv2]
        | true =>
          simp only [Core.append, if_neg hsz, hv, hv2, if_true] at h ⊢
          simpa using appendCommit_error_state _ data sig h
    | none =>
      cases hsk : s.secretKey with
      | none => constructor <;> simp [Core.append, hsz, hsk]
      | some secret =>
        simp only [Core.append, if_neg hsz, hsk] at h ⊢
        simpa using appendCommit_error_state _ data _ h

/-- C4 counterexample: with a data store whose write at slot 1 fails, the
first authoring append surfaces an error, but the in-memory Merkle roots are
no longer those from before the call. -/
theorem claim_c4_counterexample :
    (Core.append cryptoTriv coreFailingStore [0] none).1 = .error () ∧
    ¬ (Core.append cryptoTriv coreFailingStore [0] none).2.merkle.roots =
        coreFailingStore.merkle.roots := by
  constructor
  · decide
  · decide

/-- Witness for C4 at the same failing store. -/
theorem claim_c4_witness :
    (Core.append cryptoTriv coreFailingStore [0] none).2.length =
      coreFailingStore.length ∧
    (Core.append cryptoTriv coreFailingStore [0] none).2.byteLength =
      coreFailingStore.byteLength :=
  claim_c4 cryptoTriv coreFailingStore [0] none (by decide)

/-- C8: with well-formed 64-byte signatures, `on_data` at the local length
hands the reconstructed signature pair to `Core::append` and, on success,
replies with a request for the next index unless the cap is reached; at any
other index it appends nothing and replies with a request for the local
length. -/
theorem claim_c8 (c : Crypto) (core : CoreState) (d : DataMsg)
    (h1 : d.dataSignature.length = 64) (h2 : d.treeSignature.length = 64) :
    (d.index = core.length →
      ∀ s1 : CoreState,
        Core.append c core d.data (some ⟨d.dataSignature, d.treeSignature⟩) =
          (.ok (), s1) →
        onData c core d =
          (if MAX_CORE_LENGTH ≤ s1.length then (.replied none, s1)
           else (.replied (some ⟨d.index + 1⟩), s1)))
    ∧ (¬ d.index = core.length →
        onData c core d = (.replied (some ⟨core.length⟩), core)) := by
  constructor
  · intro hidx s1 happ
    simp [onData, hidx, sigFromBytes, h1, h2, happ]
  · intro hidx
    simp only [onData, if_neg hidx]

/-- Witness for C8: a concrete successful replication append replies with a
request for index 1. -/
theorem claim_c8_witness :
    onData cryptoTriv coreWritable ⟨0, [5], sig64, sig64⟩ =
      (.replied (some ⟨1⟩),
       (Core.append cryptoTriv coreWritable [5] (some ⟨sig64, sig64⟩)).2) := by
  have h := (claim_c8 cryptoTriv coreWritable ⟨0, [5], sig64, sig64⟩
      (by decide) (by decide)).1 (by decide)
      (Core.append cryptoTriv coreWritable [5] (some ⟨sig64, sig64⟩)).2
      (by decide)
  rw [h]
  decide

/-- The source merge loop over a roots list equals the spec-side merge loop
run over the reversed list. -/
theorem mergeRootsAux_reverse (p : Node → Node → List Nat) (fuel : Nat) :
    ∀ rev : List Node,
      mergeRootsAux p fuel rev.reverse = (mergeSpecAux p fuel rev).reverse := by
  induction fuel with
  | zero => intro rev; rfl
  | succ fuel ih =>
    intro rev
    match rev with
    | [] => simp [mergeRootsAux, mergeSpecAux]
    | [r] => simp [mergeRootsAux, mergeSpecAux]
    | r :: l :: rest =>
      have hrev : (r :: l :: rest).reverse = rest.reverse ++ [l, r] := by simp
      rw [hrev]
      have e2 : (rest.reverse ++ [l, r]).length - 2 = rest.reverse.length := by
        simp
      have e1 : (rest.reverse ++ [l, r]).length - 1 = rest.reverse.length + 1 := by
        simp
      have hc : 1 < (rest.reverse ++ [l, r]).length := by simp
      simp only [mergeRootsAux, mergeSpecAux, e1, e2, getD_append_pair_left,
        getD_append_pair_right, dropLast_append_pair, if_pos hc]
      by_cases hpar : flatParent l.index = flatParent r.index
      · rw [if_pos hpar, if_pos hpar]
        have hnode : rest.reverse ++
            [(⟨flatParent l.index, wrapU32 (l.length + r.length),
               p l r⟩ : Node)] =
            ((⟨flatParent l.index, wrapU32 (l.length + r.length),
               p l r⟩ : Node) :: rest).reverse := by simp
        rw [hnode, ih]
      · rw [if_neg hpar, if_neg hpar, hrev]

/-- C6 (amended): `MerkleTreeStream::next` appends a node with flat-tree
index `2 * blocks` and the given length, then repeatedly replaces the last
two roots by their shared flat-tree parent (hash `parent_hash(L, R)`,
length the wrapping u32 sum `(L.len + R.len) mod 2^32`) while they share
one, and the u32 block counter afterwards is `(b + 1) mod 2^32`.  The exact
sums of the original claim hold whenever they stay below `2^32`; at the u32
boundary the code wraps (release) or panics (debug) instead — see the
counterexample. -/
theorem claim_c6 (p : Node → Node → List Nat) (s : MerkleTreeStream)
    (hash : List Nat) (length : Nat) :
    s.next p hash length = s.nextSpec p hash length ∧
    (s.next p hash length).blocks = wrapU32 (s.blocks + 1) := by
  constructor
  · show (⟨mergeRootsAux p
        (s.roots ++ [(⟨2 * s.blocks, length, hash⟩ : Node)]).length
        (s.roots ++ [(⟨2 * s.blocks, length, hash⟩ : Node)]),
        wrapU32 (s.blocks + 1)⟩ : MerkleTreeStream) =
      ⟨(mergeSpecAux p ((⟨2 * s.blocks, length, hash⟩ : Node) ::
          s.roots.reverse).length
        ((⟨2 * s.blocks, length, hash⟩ : Node) :: s.roots.reverse)).reverse,
       wrapU32 (s.blocks + 1)⟩
    have hrev : ((⟨2 * s.blocks, length, hash⟩ : Node) ::
        s.roots.reverse).reverse = s.roots ++ [⟨2 * s.blocks, length, hash⟩] := by
      simp
    have hlen : (s.roots ++ [(⟨2 * s.blocks, length, hash⟩ : Node)]).length =
        ((⟨2 * s.blocks, length, hash⟩ : Node) :: s.roots.reverse).length := by
      simp
    rw [hlen, ← hrev,
      mergeRootsAux_reverse p _ (⟨2 * s.blocks, length, hash⟩ :: s.roots.reverse)]
  · rfl

/-- C6 counterexample: the claimed exact quantities fail at the u32
boundary.  Merging two roots of length `2^31` yields a parent whose stored
length is `0`, not the sum `2^32`; and calling `next` on a stream whose
block counter is `u32::MAX = 4294967295` leaves a counter of `0`, not
`b + 1`. -/
theorem claim_c6_counterexample :
    (MerkleTreeStream.next (fun _ _ => []) ⟨[⟨0, 2147483648, []⟩], 1⟩ []
        2147483648).roots = [⟨1, 0, []⟩] ∧
    ¬ ((0 : Nat) = 2147483648 + 2147483648) ∧
    (MerkleTreeStream.next (fun _ _ => []) ⟨[], 4294967295⟩ [] 0).blocks = 0 ∧
    ¬ ((0 : Nat) = 4294967295 + 1) := by
  refine ⟨by decide, by decide, by decide, by decide⟩

/-- C1 (amended): over a Core created on empty backing stores with a secret
key, a sequence of authoring appends of payloads that fit `MAX_BLOCK_SIZE`,
are non-empty, and number at most `MAX_CORE_LENGTH` all succeed; afterwards
`len()` is `n` and `get(i)` returns `Some` whose first component is `d_i`
for every `i < n`.  (Empty payloads append fine but cannot be read back —
see the counterexample — and indices from `MAX_CORE_LENGTH` on are refused
by `get`.) -/
theorem claim_c1 (c : Crypto) (pk sk : List Nat) (ds : List (List Nat))
    (h1 : ∀ d ∈ ds, d.length ≤ MAX_BLOCK_SIZE) (h2 : ∀ d ∈ ds, ¬ d = [])
    (h3 : ds.length ≤ MAX_CORE_LENGTH) :
    ∃ s1, Core.new emptyStore emptyStore pk (some sk) =
        .ok ⟨emptyStore, emptyStore, ⟨[], 0⟩, pk, some sk, 0, 0⟩ ∧
      appendAll c ⟨emptyStore, emptyStore, ⟨[], 0⟩, pk, some sk, 0, 0⟩ ds =
        some s1 ∧
      s1.length = ds.length ∧
      ∀ i (h : i < ds.length), ∃ sig,
        Core.get s1 i = .ok (some (ds.get ⟨i, h⟩, sig)) := by
  have hinv0 : CoreInv []
      ⟨emptyStore, emptyStore, ⟨[], 0⟩, pk, some sk, 0, 0⟩ := by
    refine ⟨rfl, rfl, rfl, by simp, ?_⟩
    intro i hi
    exact absurd hi (Nat.not_lt_zero i)
  obtain ⟨s1, hall, hinv1⟩ :=
    appendAll_spec c ds [] ⟨emptyStore, emptyStore, ⟨[], 0⟩, pk, some sk, 0, 0⟩
      hinv0 rfl h1
  have hinv2 : CoreInv ds s1 := by simpa using hinv1
  refine ⟨s1, rfl, hall, hinv2.2.2.1, ?_⟩
  intro i hi
  exact CoreInv_get ds s1 hinv2 i hi (lt_of_lt_of_le hi h3)
    (h2 (ds.get ⟨i, hi⟩) (ds.get_mem i hi))

/-- C1 counterexample: a single successful append of the empty payload into
a freshly created Core yields `len() = 1`, yet `get(0)` is an error, not
`Some` of the empty payload. -/
theorem claim_c1_counterexample :
    Core.new emptyStore emptyStore [] (some []) = .ok coreWritable ∧
    (appendAll cryptoTriv coreWritable [[]]).map CoreState.length = some 1 ∧
    (appendAll cryptoTriv coreWritable [[]]).map (fun s => Core.get s 0) =
      some (.error ()) := by
  refine ⟨by decide, by decide, by decide⟩

/-- Witness for C1 at a concrete two-payload sequence. -/
theorem claim_c1_witness :
    ∃ s1, Core.new emptyStore emptyStore [7] (some [9]) =
        .ok ⟨emptyStore, emptyStore, ⟨[], 0⟩, [7], some [9], 0, 0⟩ ∧
      appendAll cryptoTriv
        ⟨emptyStore, emptyStore, ⟨[], 0⟩, [7], some [9], 0, 0⟩ [[1], [2, 3]] =
        some s1 ∧
      s1.length = [[1], [2, 3]].length ∧
      ∀ i (h : i < [[1], [2, 3]].length), ∃ sig,
        Core.get s1 i = .ok (some ([[1], [2, 3]].get ⟨i, h⟩, sig)) :=
  claim_c1 cryptoTriv [7] [9] [[1], [2, 3]] (by decide) (by decide) (by decide)

end Libdata

